import Mathlib

/- The library marks the rational operations irreducible for the
   elaborator; restoring the default reducibility lets the concrete runs
   below evaluate. The kernel checks every proof unchanged either way. -/
set_option allowUnsafeReducibility true

attribute [local semireducible] Rat.add Rat.mul Rat.sub Rat.inv Rat.div Rat.ofScientific

/- Shallow embedding of the transaction-processing core of the tracky
   portfolio tracker.

   Numeric fields are modelled as exact rationals, dates as integers
   (milliseconds since the epoch, the value the source obtains through
   new Date on the stored date string), and absent or null or malformed
   input fields as Option values: none stands for a missing or unparsable
   field, matching the coercions of the source (parseFloat followed by
   the zero fallback, and the default fallback of the logical-or idiom).

   Sources of the definitions: src/unnamed/part_000
   (SupabaseService.processTransactions lines 44-128, EUR_RATE and toEUR
   lines 299-300, the gains useMemo lines 485-566) and src/src/App.jsx
   (the same functions at lines 33-144, 151-152 and 231-338; the App.jsx
   variant of the gains replay additionally records the per-sell audit
   values, which the embedding keeps in the SellAudit structure). -/

/-- JavaScript logical-or on numbers: zero is the only falsy numeric value
that occurs in the embedded code paths. -/
def jsOrQ (a b : ℚ) : ℚ := if a = 0 then b else a

/-- JavaScript logical-or on strings: the empty string is falsy. -/
def jsOrS (a b : String) : String := if a = ("") then b else a

/-- Whitespace predicate used to model the JS trim method (ASCII subset). -/
def isWsChar (c : Char) : Bool := c == (' ') || c == ('\t') || c == ('\n') || c == ('\r')

/-- JS string trim, over the character list. -/
def trimStr (s : String) : String :=
  String.mk (((s.data.dropWhile isWsChar).reverse.dropWhile isWsChar).reverse)

/-- JS toLowerCase (ASCII). -/
def lowerStr (s : String) : String := String.mk (s.data.map Char.toLower)

/-- JS toUpperCase (ASCII). -/
def upperStr (s : String) : String := String.mk (s.data.map Char.toUpper)

/-- Characters strictly before the first colon. -/
def takeBeforeColon : List Char → List Char
  | [] => []
  | c :: cs => if c = (':') then [] else c :: takeBeforeColon cs

/-- Characters between the first colon and the next colon (or the end). -/
def afterColonPart : List Char → List Char
  | [] => []
  | c :: cs => if c = (':') then takeBeforeColon cs else afterColonPart cs

/-- JS split on colon, component 0: the symbol with the exchange suffix removed. -/
def splitColonHead (s : String) : String := String.mk (takeBeforeColon s.data)

/-- JS split on colon, component 1 (empty when there is no colon). -/
def splitColonSnd (s : String) : String := String.mk (afterColonPart s.data)

def hasColon (s : String) : Bool := s.data.contains (':')

/-- The currency normalization applied to every raw record
(src/unnamed/part_000 line 59, src/src/App.jsx line 53): the currency field
with the EUR fallback for an absent, null or empty value, uppercased. -/
def normCcy : Option String → String
  | none => ("EUR")
  | some s => if s = ("") then ("EUR") else upperStr s

/-- The 1e-5 share epsilon of the source. -/
def eps : ℚ := 1/100000

/-- The static rate table EUR_RATE of src/unnamed/part_000 line 299:
USD 0.92, EUR 1, GBP 1.17. -/
def EUR_RATE : List (String × ℚ) := [(("USD"), 23/25), (("EUR"), 1), (("GBP"), 117/100)]

/-- JS object property lookup on the rate table. -/
def rateLookup : List (String × ℚ) → String → Option ℚ
  | [], _ => none
  | kv :: rest, c => if c = kv.1 then some kv.2 else rateLookup rest c

/-- The Currency Normalizer, src/unnamed/part_000 line 300: the amount
unchanged for EUR, otherwise multiplied by the table rate with the 0.92
default for an unrecognized code. -/
def toEUR (amt : ℚ) (ccy : String) : ℚ :=
  if ccy = ("EUR") then amt else amt * ((rateLookup EUR_RATE ccy).getD (23/25))

/-- A raw transaction record as fetched from the ledger store. -/
structure RawTx where
  symbol : Option String
  asset_type : Option String
  transaction_type : Option String
  quantity : Option ℚ
  price_per_unit : Option ℚ
  currency : Option String
  transaction_date : Int
  deriving DecidableEq

/-- A fee or withholding-tax record (the fees array of processTransactions). -/
structure FeeRec where
  id : String
  ftype : String
  amount : ℚ
  currency : String
  date : Int
  symbol : Option String
  deriving DecidableEq

/-- A dividend record. -/
structure DivRec where
  id : String
  symbol : String
  fullSymbol : String
  amount : ℚ
  currency : String
  date : Int
  deriving DecidableEq

/-- A normalized trade (the trades array of processTransactions); rawQty and
rawTxType model the underscore-prefixed debug fields of the source. -/
structure Trade where
  id : String
  symbol : String
  fullSymbol : String
  ttype : String
  shares : ℚ
  price : ℚ
  date : Int
  currency : String
  exchange : String
  rawQty : ℚ
  rawTxType : Option String
  deriving DecidableEq

/-- A position of the weighted-average-cost ledger (an entry of positionsMap). -/
structure Position where
  symbol : String
  fullSymbol : String
  ptype : String
  shares : ℚ
  totalCost : ℚ
  avgPrice : ℚ
  currency : String
  exchange : String
  firstBuyDate : Option Int
  deriving DecidableEq

/-- An open-position record as returned in the positions array
(src/unnamed/part_000 lines 123-125). -/
structure OpenPosition where
  id : Nat
  symbol : String
  fullSymbol : String
  name : String
  ptype : String
  shares : ℚ
  avgPrice : ℚ
  currentPrice : ℚ
  currency : String
  exchange : String
  purchaseDate : Option Int
  deriving DecidableEq

/-- The diagnostic counters of processTransactions. -/
structure Stats where
  cash : Nat
  fees : Nat
  taxes : Nat
  dividends : Nat
  buys : Nat
  sells : Nat
  skipped : Nat
  deriving DecidableEq

/-- The accumulating state of the processTransactions loop. -/
structure ProcState where
  positionsMap : List (String × Position)
  trades : List Trade
  fees : List FeeRec
  dividends : List DivRec
  stats : Stats
  deriving DecidableEq

def initState : ProcState := ⟨[], [], [], [], ⟨0, 0, 0, 0, 0, 0, 0⟩⟩

/-- The value returned by processTransactions. -/
structure ProcOutput where
  positions : List OpenPosition
  trades : List Trade
  fees : List FeeRec
  dividends : List DivRec
  allPositions : List (String × Position)
  stats : Stats
  deriving DecidableEq

/-- symbol field: the symbol with the empty fallback, trimmed (line 54). -/
def symOf (tx : RawTx) : String := trimStr (tx.symbol.getD (""))

/-- assetType field: asset_type with the empty fallback, lowercased, trimmed. -/
def assetTypeOf (tx : RawTx) : String := trimStr (lowerStr (tx.asset_type.getD ("")))

/-- txType field: transaction_type with the empty fallback, lowercased, trimmed. -/
def txTypeOf (tx : RawTx) : String := trimStr (lowerStr (tx.transaction_type.getD ("")))

/-- qty field: parseFloat of quantity with the zero fallback. -/
def qtyOf (tx : RawTx) : ℚ := tx.quantity.getD 0

/-- price field: parseFloat of price_per_unit with the zero fallback. -/
def priceOf (tx : RawTx) : ℚ := tx.price_per_unit.getD 0

/-- The cash rule (line 62). -/
abbrev cashCond (tx : RawTx) : Prop :=
  lowerStr (symOf tx) = ("cash") ∨ assetTypeOf tx = ("cash")

/-- The fee rule (line 64). -/
abbrev feeCond (tx : RawTx) : Prop :=
  lowerStr (symOf tx) = ("fee") ∨ assetTypeOf tx = ("expense")

/-- The withholding-tax rule (line 70). -/
abbrev taxCond (tx : RawTx) : Prop :=
  assetTypeOf tx = ("tax") ∨ txTypeOf tx = ("withholding tax")

/-- The dividend rule (line 76). -/
abbrev divCond (tx : RawTx) : Prop :=
  assetTypeOf tx = ("cash dividends") ∨ assetTypeOf tx = ("dividend") ∨
    txTypeOf tx = ("cash dividends") ∨ txTypeOf tx = ("dividend")

/-- The trade guard (lines 84-87): a trade asset type or a trade action,
with a quantity above the 1e-5 epsilon and a positive price. -/
abbrev tradeCond (tx : RawTx) : Prop :=
  (assetTypeOf tx ∈ [("stock"), ("etf"), ("equity")] ∨
    txTypeOf tx ∈ [("buy"), ("sell"), ("transfer in"), ("transfer out")]) ∧
    eps < |qtyOf tx| ∧ 0 < priceOf tx

/-- The exchange code: the part after the colon, uppercased (line 89). -/
def exchOf (tx : RawTx) : String :=
  if hasColon (symOf tx) then upperStr (splitColonSnd (symOf tx)) else ("")

/-- The buy/sell direction (lines 91-94). -/
def isBuyOf (tx : RawTx) : Bool :=
  if txTypeOf tx = ("sell") ∨ txTypeOf tx = ("transfer out") then false
  else if txTypeOf tx = ("buy") ∨ txTypeOf tx = ("transfer in") then true
  else decide (0 < qtyOf tx)

/-- A fresh empty position as created on first sight of a symbol (line 102). -/
def freshPos (tx : RawTx) : Position :=
  { symbol := splitColonHead (symOf tx), fullSymbol := symOf tx,
    ptype := if assetTypeOf tx = ("etf") then ("ETF") else ("Stock"),
    shares := 0, totalCost := 0, avgPrice := 0,
    currency := normCcy tx.currency, exchange := exchOf tx, firstBuyDate := none }

/-- The buy update of the Position Builder (lines 106-111): add the shares
and cost, recompute the average, set the first-buy date once. -/
def posBuy (pos : Position) (q price : ℚ) (date : Int) : Position :=
  { pos with
    shares := pos.shares + q,
    totalCost := pos.totalCost + q * price,
    avgPrice := if 0 < pos.shares + q then (pos.totalCost + q * price) / (pos.shares + q) else 0,
    firstBuyDate := if pos.firstBuyDate.isNone then some date else pos.firstBuyDate }

/-- The sell update of the Position Builder (lines 112-117): remove the sold
quantity at the average cost, clamping both fields at zero; the average
cost field itself is not touched. -/
def posSell (pos : Position) (q : ℚ) : Position :=
  { pos with
    shares := max 0 (pos.shares - q),
    totalCost := max 0 (pos.totalCost - q * pos.avgPrice) }

/-- JS object property lookup on the positions map. -/
def assocGet : List (String × Position) → String → Option Position
  | [], _ => none
  | kv :: rest, k => if kv.1 = k then some kv.2 else assocGet rest k

/-- JS object property assignment on the positions map (in-place update of
the value stored under an existing key). -/
def assocSet : List (String × Position) → String → Position → List (String × Position)
  | [], _, _ => []
  | kv :: rest, k, v => if kv.1 = k then (k, v) :: rest else kv :: assocSet rest k v

/-- Ensure the positions map has an entry for the record's clean symbol
(line 101): append a fresh position when absent. -/
def ensureKey (m : List (String × Position)) (tx : RawTx) : List (String × Position) :=
  if (assocGet m (splitColonHead (symOf tx))).isNone
  then m ++ [(splitColonHead (symOf tx), freshPos tx)]
  else m

/-- The record's position after the ensure step (line 105). -/
def getPos (m : List (String × Position)) (tx : RawTx) : Position :=
  (assocGet m (splitColonHead (symOf tx))).getD (freshPos tx)

/-- The position-map update of the trade branch (lines 101-117): ensure the
entry exists, then store the buy or sell update of it. -/
def updatePositions (m : List (String × Position)) (tx : RawTx) : List (String × Position) :=
  assocSet (ensureKey m tx) (splitColonHead (symOf tx))
    (if isBuyOf tx
     then posBuy (getPos (ensureKey m tx) tx) |qtyOf tx| (priceOf tx) tx.transaction_date
     else posSell (getPos (ensureKey m tx) tx) |qtyOf tx|)

/-- The trade branch of processTransactions (lines 84-120): emit the
normalized trade, create the position on first sight, apply the buy or sell
update; records failing the guard are counted as skipped. -/
def tradeOrSkip (st : ProcState) (idx : Nat) (tx : RawTx) : ProcState :=
  if tradeCond tx then
    { st with
      trades := st.trades ++
        [{ id := ("trade-") ++ toString idx, symbol := splitColonHead (symOf tx),
           fullSymbol := symOf tx,
           ttype := if isBuyOf tx then ("buy") else ("sell"),
           shares := |qtyOf tx|, price := priceOf tx, date := tx.transaction_date,
           currency := normCcy tx.currency, exchange := exchOf tx,
           rawQty := qtyOf tx, rawTxType := tx.transaction_type }],
      positionsMap := updatePositions st.positionsMap tx,
      stats := if isBuyOf tx then { st.stats with buys := st.stats.buys + 1 }
               else { st.stats with sells := st.stats.sells + 1 } }
  else { st with stats := { st.stats with skipped := st.stats.skipped + 1 } }

/-- One iteration of the classification loop of processTransactions
(lines 53-121), evaluated as a priority-ordered rule list. -/
def processTx (st : ProcState) (idx : Nat) (tx : RawTx) : ProcState :=
  if cashCond tx then { st with stats := { st.stats with cash := st.stats.cash + 1 } }
  else if feeCond tx then
    { st with
      fees := st.fees ++
        [{ id := ("fee-") ++ toString idx, ftype := ("Transaction Fee"),
           amount := |priceOf tx|, currency := normCcy tx.currency,
           date := tx.transaction_date, symbol := none }],
      stats := { st.stats with fees := st.stats.fees + 1 } }
  else if taxCond tx then
    { st with
      fees := st.fees ++
        [{ id := ("tax-") ++ toString idx, ftype := ("Withholding Tax"),
           amount := |priceOf tx|, currency := normCcy tx.currency,
           date := tx.transaction_date, symbol := some (symOf tx) }],
      stats := { st.stats with taxes := st.stats.taxes + 1 } }
  else if divCond tx then
    { st with
      dividends := st.dividends ++
        (if (1 : ℚ)/1000 < (if |qtyOf tx| < (1 : ℚ)/10000 then |priceOf tx| else |priceOf tx * qtyOf tx|)
         then [{ id := ("div-") ++ toString idx, symbol := splitColonHead (symOf tx),
                 fullSymbol := symOf tx,
                 amount := (if |qtyOf tx| < (1 : ℚ)/10000 then |priceOf tx| else |priceOf tx * qtyOf tx|),
                 currency := normCcy tx.currency, date := tx.transaction_date }]
         else []),
      stats := { st.stats with dividends := st.stats.dividends + 1 } }
  else tradeOrSkip st idx tx

/-- Date order on raw records, the comparator of the initial sort (line 51). -/
def rawLe (a b : RawTx) : Prop := a.transaction_date ≤ b.transaction_date

instance : DecidableRel rawLe :=
  fun a b => inferInstanceAs (Decidable (a.transaction_date ≤ b.transaction_date))

instance : IsTotal RawTx rawLe := ⟨fun a b => Int.le_total a.transaction_date b.transaction_date⟩

instance : IsTrans RawTx rawLe := ⟨fun _ _ _ h1 h2 => le_trans h1 h2⟩

/-- Date order on trades, the comparator of the per-symbol sort (line 492). -/
def tradeLe (a b : Trade) : Prop := a.date ≤ b.date

instance : DecidableRel tradeLe :=
  fun a b => inferInstanceAs (Decidable (a.date ≤ b.date))

instance : IsTotal Trade tradeLe := ⟨fun a b => Int.le_total a.date b.date⟩

instance : IsTrans Trade tradeLe := ⟨fun _ _ _ h1 h2 => le_trans h1 h2⟩

/-- The open-position projection (lines 123-125): index-based id, the name
duplicating the symbol, and currentPrice initialized to the average price. -/
def mkOpen (i : Nat) (p : Position) : OpenPosition :=
  { id := i + 1, symbol := p.symbol, fullSymbol := p.fullSymbol, name := p.symbol,
    ptype := p.ptype, shares := p.shares, avgPrice := p.avgPrice,
    currentPrice := p.avgPrice, currency := p.currency, exchange := p.exchange,
    purchaseDate := p.firstBuyDate }

/-- SupabaseService.processTransactions (lines 44-128): sort the raw records
by date, run the classification loop, and project the open positions. -/
def processTransactions (raw : List RawTx) : ProcOutput :=
  let sorted := List.insertionSort rawLe raw
  let st := sorted.enum.foldl (fun s p => processTx s p.1 p.2) initState
  { positions := ((st.positionsMap.map Prod.snd).filter (fun p => eps < p.shares)).enum.map
      (fun ip => mkOpen ip.1 ip.2),
    trades := st.trades, fees := st.fees, dividends := st.dividends,
    allPositions := st.positionsMap, stats := st.stats }

/-- A tax lot of the FIFO queue (line 506 of src/unnamed/part_000, line 266
of src/src/App.jsx): created on each buy with remaining equal to the bought
share count. -/
structure Lot where
  date : Int
  shares : ℚ
  remaining : ℚ
  price : ℚ
  deriving DecidableEq

/-- One matched portion of a sell (an entry pushed onto lotsUsed, line 519). -/
structure LotUse where
  date : Int
  shares : ℚ
  price : ℚ
  deriving DecidableEq

/-- The values produced by the FIFO matching loop of a single sell
(lines 513-521): the updated lot queue, the accumulated cost basis, the
quantity still unmatched, and the audit list of matched portions. -/
structure ConsumeResult where
  lots : List Lot
  costBasis : ℚ
  left : ℚ
  lotsUsed : List LotUse
  deriving DecidableEq

/-- The FIFO matching loop (lines 513-521): walk the queue in order while
more than the 1e-5 epsilon remains to sell, skipping lots drained below the
epsilon, consuming min(remaining, toSell) from each usable lot. -/
def consumeLots : List Lot → ℚ → ConsumeResult
  | [], toSell => ⟨[], 0, toSell, []⟩
  | l :: ls, toSell =>
    if eps < toSell then
      if eps < l.remaining then
        let use := min l.remaining toSell
        let r := consumeLots ls (toSell - use)
        ⟨{ l with remaining := l.remaining - use } :: r.lots,
          use * l.price + r.costBasis, r.left, ⟨l.date, use, l.price⟩ :: r.lotsUsed⟩
      else
        let r := consumeLots ls toSell
        ⟨l :: r.lots, r.costBasis, r.left, r.lotsUsed⟩
    else ⟨l :: ls, 0, toSell, []⟩

/-- ceil of the day difference between two epoch-millisecond dates
(line 525 / line 290: Math.ceil of the millisecond difference divided by
86400000). -/
def ceilDays (sellDate lotDate : Int) : Int :=
  Int.ceil (((sellDate - lotDate : Int) : ℚ) / 86400000)

/-- The audit record of one processed sell: the fields the App.jsx variant
pushes onto its sells array (line 302) together with the loop-local values
the source logs (proceeds, costBasis, the matched portions, and the
unmatched leftover behind the WARNING diagnostic of line 286). -/
structure SellAudit where
  date : Int
  shares : ℚ
  price : ℚ
  proceeds : ℚ
  costBasis : ℚ
  gain : ℚ
  gainEUR : ℚ
  days : Int
  isLong : Bool
  lotsUsed : List LotUse
  unmatched : ℚ
  deriving DecidableEq

/-- The per-symbol accumulating state of the gains replay (lines 501-502,
260-262): the lot queue, the processed sells, and the running sums. -/
structure ReplayState where
  lots : List Lot
  sells : List SellAudit
  symRealized : ℚ
  symCostSold : ℚ
  symProceeds : ℚ
  shortRealized : ℚ
  longRealized : ℚ
  deriving DecidableEq

def initReplay : ReplayState := ⟨[], [], 0, 0, 0, 0, 0⟩

/-- The sell branch of the replay (lines 507-533 / 268-303): FIFO-match the
sold quantity, compute proceeds on the full quantity and cost basis on the
matched portions, convert the gain, and bucket by the holding period taken
from the first (oldest) consumed lot; with no consumed lot days is 0. -/
def sellOutcome (ccy : String) (lots : List Lot) (t : Trade) : SellAudit × List Lot :=
  let proceeds := t.shares * t.price
  let r := consumeLots lots t.shares
  let gain := proceeds - r.costBasis
  let days : Int := match r.lotsUsed with
    | [] => 0
    | u :: _ => ceilDays t.date u.date
  ⟨{ date := t.date, shares := t.shares, price := t.price, proceeds := proceeds,
     costBasis := r.costBasis, gain := gain, gainEUR := toEUR gain ccy, days := days,
     isLong := decide (365 < days), lotsUsed := r.lotsUsed, unmatched := r.left },
    r.lots⟩

/-- One trade of the per-symbol replay loop (lines 504-535): a buy appends a
fresh lot, a sell runs the FIFO match and accumulates the realized buckets. -/
def stepTrade (ccy : String) (st : ReplayState) (t : Trade) : ReplayState :=
  if t.ttype = ("buy") then
    { st with lots := st.lots ++ [{ date := t.date, shares := t.shares, remaining := t.shares, price := t.price }] }
  else if t.ttype = ("sell") then
    let o := sellOutcome ccy st.lots t
    { st with
      lots := o.2,
      sells := st.sells ++ [o.1],
      symRealized := st.symRealized + o.1.gainEUR,
      symCostSold := st.symCostSold + toEUR o.1.costBasis ccy,
      symProceeds := st.symProceeds + toEUR o.1.proceeds ccy,
      shortRealized := if o.1.isLong then st.shortRealized else st.shortRealized + o.1.gainEUR,
      longRealized := if o.1.isLong then st.longRealized + o.1.gainEUR else st.longRealized }
  else st

/-- The full per-symbol FIFO replay over an already sorted trade list. -/
def replayTrades (ccy : String) (ts : List Trade) : ReplayState :=
  ts.foldl (stepTrade ccy) initReplay

/-- The symbol's trades in ascending date order (line 492): filter by
symbol, then the date sort. -/
def symTradesOf (trades : List Trade) (sym : String) : List Trade :=
  List.insertionSort tradeLe (trades.filter (fun t => t.symbol = sym))

/-- The FIFO replay the gains engine runs for one symbol. -/
def symReplay (ccy : String) (trades : List Trade) (sym : String) : ReplayState :=
  replayTrades ccy (symTradesOf trades sym)

/-- The current price selection of the gains engine (line 498 / line 257):
the position's currentPrice, else its average price, else 0, under JS
falsiness (a missing position contributes the falsy undefined). -/
def selectCurPrice : Option OpenPosition → ℚ
  | none => 0
  | some p => jsOrQ p.currentPrice (jsOrQ p.avgPrice 0)

/-- The currency selection of the gains engine (line 497 / line 256): the
position's currency, else the first trade's currency, else EUR. -/
def ccyFor (positions : List OpenPosition) (trades : List Trade) (sym : String) : String :=
  jsOrS (match positions.find? (fun p => p.symbol = sym) with
         | some p => p.currency
         | none => (""))
    (jsOrS (match (symTradesOf trades sym).head? with
            | some t => t.currency
            | none => ("")) ("EUR"))

/-- The remaining-lot accumulator of the replay (lines 537-547 / 307-317). -/
structure RemAgg where
  remShares : ℚ
  remCost : ℚ
  shortU : ℚ
  longU : ℚ
  deriving DecidableEq

/-- The remaining-lot accumulation (lines 537-547): for each lot still above
the 1e-5 epsilon, add its remaining shares and cost and bucket its
unrealized gain by the age of the lot relative to now. -/
def remainingAgg (now : Int) (ccy : String) (curPrice : ℚ) (lots : List Lot) : RemAgg :=
  lots.foldl
    (fun a l =>
      if eps < l.remaining then
        { remShares := a.remShares + l.remaining,
          remCost := a.remCost + l.remaining * l.price,
          shortU := if 365 < ceilDays now l.date then a.shortU
                    else a.shortU + toEUR (l.remaining * curPrice - l.remaining * l.price) ccy,
          longU := if 365 < ceilDays now l.date then a.longU + toEUR (l.remaining * curPrice - l.remaining * l.price) ccy
                   else a.longU }
      else a)
    ⟨0, 0, 0, 0⟩

/-- The per-symbol entry of the gains report (lines 551-557 / 322-328). -/
structure SymGain where
  symbol : String
  currency : String
  fullySold : Bool
  realized : ℚ
  unrealized : ℚ
  total : ℚ
  proceeds : ℚ
  costSold : ℚ
  sellCount : Nat
  buyCount : Nat
  remShares : ℚ
  remCost : ℚ
  curVal : ℚ
  deriving DecidableEq

/-- The gains report (lines 486, 551-563 / 240-241, 322-334). -/
structure GainsResult where
  bySymbol : List SymGain
  realized : ℚ
  unrealized : ℚ
  proceeds : ℚ
  costSold : ℚ
  shortRealized : ℚ
  longRealized : ℚ
  shortUnrealized : ℚ
  longUnrealized : ℚ
  deriving DecidableEq

def emptyGains : GainsResult := ⟨[], 0, 0, 0, 0, 0, 0, 0, 0⟩

/-- The body of the per-symbol loop of the gains useMemo (lines 491-563 /
248-334), accumulating one symbol into the report; now stands for the value
of Date.now() at the single evaluation. -/
def addSymbolGain (now : Int) (trades : List Trade) (positions : List OpenPosition)
    (res : GainsResult) (sym : String) : GainsResult :=
  let symTrades := symTradesOf trades sym
  let pos := positions.find? (fun p => p.symbol = sym)
  let ccy := ccyFor positions trades sym
  let curPrice := selectCurPrice pos
  let fullySold := match pos with
    | none => true
    | some p => decide (p.shares < eps)
  let st := replayTrades ccy symTrades
  let agg := remainingAgg now ccy curPrice st.lots
  let symUnrealized := toEUR (agg.remShares * curPrice - agg.remCost) ccy
  { bySymbol := res.bySymbol ++
      [{ symbol := sym, currency := ccy, fullySold := fullySold,
         realized := st.symRealized, unrealized := symUnrealized,
         total := st.symRealized + symUnrealized,
         proceeds := st.symProceeds, costSold := st.symCostSold,
         sellCount := (symTrades.filter (fun t => t.ttype = ("sell"))).length,
         buyCount := (symTrades.filter (fun t => t.ttype = ("buy"))).length,
         remShares := agg.remShares, remCost := toEUR agg.remCost ccy,
         curVal := toEUR (agg.remShares * curPrice) ccy }],
    realized := res.realized + st.symRealized,
    unrealized := res.unrealized + symUnrealized,
    proceeds := res.proceeds + st.symProceeds,
    costSold := res.costSold + st.symCostSold,
    shortRealized := res.shortRealized + st.shortRealized,
    longRealized := res.longRealized + st.longRealized,
    shortUnrealized := res.shortUnrealized + agg.shortU,
    longUnrealized := res.longUnrealized + agg.longU }

/-- The symbol list in first-occurrence order (line 489: the set built from
the trade list preserves first insertion). -/
def uniqueSymbols (ts : List Trade) : List String :=
  ts.foldl (fun acc t => if t.symbol ∈ acc then acc else acc ++ [t.symbol]) []

/-- The gains useMemo: the empty report for an empty trade list, otherwise
the per-symbol loop over the distinct symbols. -/
def gains (now : Int) (trades : List Trade) (positions : List OpenPosition) : GainsResult :=
  if trades.isEmpty then emptyGains
  else (uniqueSymbols trades).foldl (addSymbolGain now trades positions) emptyGains

/-- Total remaining share count over a lot queue. -/
def lotsRemaining (lots : List Lot) : ℚ := (lots.map (fun l => l.remaining)).sum

/-- Total matched share count recorded in a list of matched portions. -/
def usedShares (us : List LotUse) : ℚ := (us.map (fun u => u.shares)).sum

/-- Total cost of the matched portions of a list of matched portions. -/
def usedCost (us : List LotUse) : ℚ := (us.map (fun u => u.shares * u.price)).sum

/-- Total matched share count over all recorded sells. -/
def matchedTotal (sells : List SellAudit) : ℚ := (sells.map (fun s => usedShares s.lotsUsed)).sum

/-- Sum of the share counts of the buy trades of a list. -/
def buyTotal (ts : List Trade) : ℚ :=
  ((ts.filter (fun t => t.ttype = ("buy"))).map (fun t => t.shares)).sum

/- Concrete inputs used by the witnesses and counterexamples below. -/

/-- Scenario A, record 1: Buy 10 shares of AAPL at 100 on day 0. -/
def rA1 : RawTx :=
  { symbol := some ("AAPL"), asset_type := some ("stock"), transaction_type := some ("buy"),
    quantity := some 10, price_per_unit := some 100, currency := none, transaction_date := 0 }

/-- Scenario A, record 2: Buy 10 shares of AAPL at 120 on day 1. -/
def rA2 : RawTx :=
  { symbol := some ("AAPL"), asset_type := some ("stock"), transaction_type := some ("buy"),
    quantity := some 10, price_per_unit := some 120, currency := none, transaction_date := 86400000 }

/-- Scenario A, record 3: Sell 15 shares of AAPL at 150 on day 2. -/
def rA3 : RawTx :=
  { symbol := some ("AAPL"), asset_type := some ("stock"), transaction_type := some ("sell"),
    quantity := some 15, price_per_unit := some 150, currency := none, transaction_date := 172800000 }

/-- A buy of one share at 10 on day 0 (engine-level input). -/
def tB1 : Trade :=
  { id := ("trade-0"), symbol := ("AAA"), fullSymbol := ("AAA"), ttype := ("buy"),
    shares := 1, price := 10, date := 0, currency := ("EUR"), exchange := (""),
    rawQty := 1, rawTxType := some ("buy") }

/-- A sell of 1 + 1e-6 shares at 10 on day 1: it exceeds the one available
share, but only by a quantity below the 1e-5 epsilon. -/
def tS1 : Trade :=
  { id := ("trade-1"), symbol := ("AAA"), fullSymbol := ("AAA"), ttype := ("sell"),
    shares := 1 + 1/1000000, price := 10, date := 86400000, currency := ("EUR"), exchange := (""),
    rawQty := -(1 + 1/1000000), rawTxType := some ("sell") }

/-- A buy of one share at 5 on day 0. -/
def tB2 : Trade :=
  { id := ("trade-0"), symbol := ("BBB"), fullSymbol := ("BBB"), ttype := ("buy"),
    shares := 1, price := 5, date := 0, currency := ("EUR"), exchange := (""),
    rawQty := 1, rawTxType := some ("buy") }

/-- A sell of that share at 10, exactly 365 days later. -/
def tS2 : Trade :=
  { id := ("trade-1"), symbol := ("BBB"), fullSymbol := ("BBB"), ttype := ("sell"),
    shares := 1, price := 10, date := 365 * 86400000, currency := ("EUR"), exchange := (""),
    rawQty := -1, rawTxType := some ("sell") }

/-- The audit record the replay of [tB2, tS2] produces for the sell. -/
def sB2 : SellAudit :=
  { date := 365 * 86400000, shares := 1, price := 10, proceeds := 10, costBasis := 5,
    gain := 5, gainEUR := 5, days := 365, isLong := false,
    lotsUsed := [{ date := 0, shares := 1, price := 5 }], unmatched := 0 }

/-- An open position whose supplied current price is negative. -/
def pNeg : OpenPosition :=
  { id := 1, symbol := ("CCC"), fullSymbol := ("CCC"), name := ("CCC"), ptype := ("Stock"),
    shares := 2, avgPrice := 5, currentPrice := -1, currency := ("EUR"), exchange := (""),
    purchaseDate := some 0 }

/-- A consistent position holding 10 shares at average cost 100. -/
def pTen : Position :=
  { symbol := ("DDD"), fullSymbol := ("DDD"), ptype := ("Stock"), shares := 10,
    totalCost := 1000, avgPrice := 100, currency := ("EUR"), exchange := (""),
    firstBuyDate := some 0 }

/-- The AAPL position after the full Scenario A run: 5 shares remain at
average cost 110, total cost 550. -/
def pA : Position :=
  { symbol := ("AAPL"), fullSymbol := ("AAPL"), ptype := ("Stock"), shares := 5,
    totalCost := 550, avgPrice := 110, currency := ("EUR"), exchange := (""),
    firstBuyDate := some 0 }

/-- Scenario B: a dividend record with quantity 0 and price 50. -/
def rDiv : RawTx :=
  { symbol := some ("EEE:XAMS"), asset_type := some ("cash dividends"), transaction_type := none,
    quantity := some 0, price_per_unit := some 50, currency := none, transaction_date := 0 }

/-- A fee record carrying a lowercase currency code. -/
def rFee : RawTx :=
  { symbol := some ("fee"), asset_type := some ("expense"), transaction_type := none,
    quantity := none, price_per_unit := some (-3), currency := some ("usd"), transaction_date := 0 }

/-- An open position whose supplied current price is zero. -/
def pZero : OpenPosition :=
  { id := 1, symbol := ("FFF"), fullSymbol := ("FFF"), name := ("FFF"), ptype := ("Stock"),
    shares := 2, avgPrice := 7, currentPrice := 0, currency := ("EUR"), exchange := (""),
    purchaseDate := some 0 }

/-- The fee record the classifier emits for rFee. -/
def feeUSD : FeeRec :=
  { id := ("fee-0"), ftype := ("Transaction Fee"), amount := 3, currency := ("USD"),
    date := 0, symbol := none }

/-- The matched portion the replay of [tB2, tS2] records. -/
def luB2 : LotUse := { date := 0, shares := 1, price := 5 }

/-- The Position Builder's reachable-state invariant: total cost equals
shares times average cost, both shares and average nonnegative, and a
positive share count forces a positive average. -/
def PosInv (p : Position) : Prop :=
  p.totalCost = p.shares * p.avgPrice ∧ 0 ≤ p.shares ∧ 0 ≤ p.avgPrice ∧
    (0 < p.shares → 0 < p.avgPrice)

/- ==================== Theorems ==================== -/

/-- C1: Scenario A. After the two buys the Position Builder records average
cost 110 for AAPL; replaying all three trades, the FIFO engine matches the
sell of 15 against 10 shares of the first lot (unit cost 100) and 5 of the
second (unit cost 120), with costBasis 1600, proceeds 2250, realized gain
650, and the second lot keeps 5 shares remaining at unit cost 120. -/
theorem C1_scenarioA :
    ((processTransactions [rA1, rA2]).allPositions.map (fun e => e.2.avgPrice)) = [110] ∧
    (((symReplay (ccyFor (processTransactions [rA1, rA2, rA3]).positions
        (processTransactions [rA1, rA2, rA3]).trades ("AAPL"))
        (processTransactions [rA1, rA2, rA3]).trades ("AAPL")).sells).map
      (fun s => (s.costBasis, s.proceeds, s.gain, s.lotsUsed))) =
      [(1600, 2250, 650, [⟨0, 10, 100⟩, ⟨86400000, 5, 120⟩])] ∧
    (symReplay (ccyFor (processTransactions [rA1, rA2, rA3]).positions
        (processTransactions [rA1, rA2, rA3]).trades ("AAPL"))
        (processTransactions [rA1, rA2, rA3]).trades ("AAPL")).lots =
      [⟨0, 10, 0, 100⟩, ⟨86400000, 10, 5, 120⟩] :=
  ⟨by decide, by decide, by decide⟩

/-- C3: on a position state of the Position Builder (one satisfying the
builder's invariant totalCost = shareCount times averageCost with a
nonnegative average), the sell update gives the new share count
max 0 (shares - q), the new total cost max 0 (totalCost - min(shares, q)
times averageCost), leaves averageCost unchanged, and clamps an oversell
to zero shares. -/
theorem C3_sell_update (pos : Position) (q : ℚ)
    (hinv : pos.totalCost = pos.shares * pos.avgPrice) (havg : 0 ≤ pos.avgPrice) :
    (posSell pos q).shares = max 0 (pos.shares - q) ∧
    (posSell pos q).totalCost = max 0 (pos.totalCost - min pos.shares q * pos.avgPrice) ∧
    (posSell pos q).avgPrice = pos.avgPrice ∧
    (pos.shares < q → (posSell pos q).shares = 0) := by
  refine ⟨rfl, ?_, rfl, ?_⟩
  · show max 0 (pos.totalCost - q * pos.avgPrice) = _
    rcases le_total q pos.shares with h | h
    · rw [min_eq_right h]
    · rw [min_eq_left h, hinv]
      have h1 : pos.shares * pos.avgPrice - q * pos.avgPrice ≤ 0 := by nlinarith
      have h2 : pos.shares * pos.avgPrice - pos.shares * pos.avgPrice ≤ 0 := by nlinarith
      rw [max_eq_left h1, max_eq_left h2]
  · intro h
    show max 0 (pos.shares - q) = 0
    rw [max_eq_left (by linarith)]

/-- Witness for C3 at a concrete oversell: 10 shares at average 100, total
cost 1000, selling 15 clamps both shares and total cost to zero. -/
theorem C3_sell_update_witness :
    (pTen.totalCost = pTen.shares * pTen.avgPrice) ∧ (0 ≤ pTen.avgPrice) ∧
    ((posSell pTen 15).shares = max 0 (pTen.shares - 15) ∧
     (posSell pTen 15).totalCost = max 0 (pTen.totalCost - min pTen.shares 15 * pTen.avgPrice) ∧
     (posSell pTen 15).avgPrice = pTen.avgPrice ∧
     (pTen.shares < 15 → (posSell pTen 15).shares = 0)) ∧
    (posSell pTen 15).shares = 0 ∧ (posSell pTen 15).totalCost = 0 :=
  ⟨by decide, by decide, C3_sell_update pTen 15 (by decide) (by decide), by decide, by decide⟩

/-- C7: a record not matched by the cash, fee or tax rules that satisfies
the dividend rule emits exactly one dividend when the amount (the absolute
price when the quantity is below 1e-4 in absolute value, else the absolute
price-times-quantity) exceeds 0.001, and none otherwise; the dividend
carries the symbol trimmed to the part before the exchange separator, and
the trades and fees streams are untouched. -/
theorem C7_dividend_rule (st : ProcState) (idx : Nat) (tx : RawTx)
    (h1 : ¬ cashCond tx) (h2 : ¬ feeCond tx) (h3 : ¬ taxCond tx) (h4 : divCond tx) :
    (processTx st idx tx).dividends = st.dividends ++
      (if (1 : ℚ)/1000 < (if |qtyOf tx| < (1 : ℚ)/10000 then |priceOf tx| else |priceOf tx * qtyOf tx|)
       then [{ id := ("div-") ++ toString idx, symbol := splitColonHead (symOf tx),
               fullSymbol := symOf tx,
               amount := (if |qtyOf tx| < (1 : ℚ)/10000 then |priceOf tx| else |priceOf tx * qtyOf tx|),
               currency := normCcy tx.currency, date := tx.transaction_date }]
       else []) ∧
    (processTx st idx tx).trades = st.trades ∧
    (processTx st idx tx).fees = st.fees := by
  unfold processTx
  rw [if_neg h1, if_neg h2, if_neg h3, if_pos h4]
  exact ⟨rfl, rfl, rfl⟩

/-- Witness for C7, Scenario B: a cash-dividends record with quantity 0 and
price 50 is emitted with amount 50 (the price field is used because the
quantity is below 1e-4), and the symbol EEE:XAMS is trimmed to EEE. -/
theorem C7_dividend_rule_witness :
    (¬ cashCond rDiv) ∧ (¬ feeCond rDiv) ∧ (¬ taxCond rDiv) ∧ divCond rDiv ∧
    (processTx initState 0 rDiv).dividends = initState.dividends ++
      (if (1 : ℚ)/1000 < (if |qtyOf rDiv| < (1 : ℚ)/10000 then |priceOf rDiv| else |priceOf rDiv * qtyOf rDiv|)
       then [{ id := ("div-") ++ toString 0, symbol := splitColonHead (symOf rDiv),
               fullSymbol := symOf rDiv,
               amount := (if |qtyOf rDiv| < (1 : ℚ)/10000 then |priceOf rDiv| else |priceOf rDiv * qtyOf rDiv|),
               currency := normCcy rDiv.currency, date := rDiv.transaction_date }]
       else []) ∧
    ((processTx initState 0 rDiv).dividends.map (fun d => d.amount)) = [50] ∧
    ((processTx initState 0 rDiv).dividends.map (fun d => d.symbol)) = [("EEE")] :=
  ⟨by decide, by decide, by decide, by decide,
    (C7_dividend_rule initState 0 rDiv (by decide) (by decide) (by decide) (by decide)).1,
    by decide, by decide⟩

/-- C8: the Currency Normalizer returns an EUR amount unchanged, multiplies
by the table rate for USD and GBP (so 100 GBP converts to 117 EUR), and
applies the 0.92 default factor to any code outside the table. -/
theorem C8_currency (a : ℚ) :
    toEUR a ("EUR") = a ∧
    toEUR a ("USD") = a * (23/25) ∧
    toEUR a ("GBP") = a * (117/100) ∧
    (∀ c : String, rateLookup EUR_RATE c = none → toEUR a c = a * (23/25)) ∧
    toEUR (100 : ℚ) ("GBP") = 117 := by
  refine ⟨rfl, rfl, rfl, ?_, by decide⟩
  intro c h
  unfold toEUR
  have hc : ¬ (c = ("EUR")) := by
    intro e
    rw [e] at h
    exact absurd h (by decide)
  rw [if_neg hc, h]
  rfl

/-- Witness for C8 at the unrecognized code CHF: the lookup misses and the
0.92 default factor applies. -/
theorem C8_currency_witness :
    (rateLookup EUR_RATE ("CHF") = none) ∧ toEUR 5 ("CHF") = 5 * (23/25) ∧
    toEUR (100 : ℚ) ("GBP") = 117 :=
  ⟨by decide, (C8_currency 5).2.2.2.1 ("CHF") (by decide), (C8_currency 100).2.2.2.2⟩

/-- C9 counterexample: a position supplying the negative current price -1
with average cost 5. The claim says a non-positive current price falls back
to the average cost, but the engine's selection keeps -1 (JS logical-or
falls back only on zero), so the claim fails at this input. -/
theorem C9_counterexample :
    pNeg.currentPrice ≤ 0 ∧ pNeg.avgPrice = 5 ∧
    selectCurPrice (some pNeg) = -1 ∧ ¬ (selectCurPrice (some pNeg) = pNeg.avgPrice) :=
  ⟨by decide, by decide, by decide, by decide⟩

/-- C9 amended: the engine falls back to the position's average cost
exactly when the supplied current price is zero (the only falsy number); a
missing position yields the price 0; a nonzero (also negative) current
price is used as supplied; and the positions built by processTransactions
initialize currentPrice to the average price. -/
theorem C9_price_fallback :
    (∀ p : OpenPosition, p.currentPrice = 0 → selectCurPrice (some p) = jsOrQ p.avgPrice 0) ∧
    (∀ p : OpenPosition, ¬ (p.currentPrice = 0) → selectCurPrice (some p) = p.currentPrice) ∧
    selectCurPrice none = 0 ∧
    (∀ raw : List RawTx, ∀ p ∈ (processTransactions raw).positions, p.currentPrice = p.avgPrice) := by
  refine ⟨?_, ?_, rfl, ?_⟩
  · intro p h
    simp [selectCurPrice, jsOrQ, h]
  · intro p h
    simp [selectCurPrice, jsOrQ, h]
  · intro raw p hp
    unfold processTransactions at hp
    simp only [List.mem_map] at hp
    obtain ⟨ip, _, rfl⟩ := hp
    rfl

/-- Witness for C9 at concrete positions: a zero current price falls back
to the average cost 7, and the negative price -1 is used as supplied. -/
theorem C9_price_fallback_witness :
    (pZero.currentPrice = 0) ∧ selectCurPrice (some pZero) = jsOrQ pZero.avgPrice 0 ∧
    (¬ (pNeg.currentPrice = 0)) ∧ selectCurPrice (some pNeg) = pNeg.currentPrice ∧
    selectCurPrice (some pZero) = 7 :=
  ⟨by decide, (C9_price_fallback).1 pZero (by decide), by decide,
    (C9_price_fallback).2.1 pNeg (by decide), by decide⟩

/-- C10: every fee, dividend or trade record a classification step emits
carries the normalized currency of its raw record: EUR when the currency
field is absent, null or empty, and the uppercased code otherwise. -/
theorem C10_currency_normalization (st : ProcState) (idx : Nat) (tx : RawTx) :
    (∀ f ∈ (processTx st idx tx).fees, f ∈ st.fees ∨ f.currency = normCcy tx.currency) ∧
    (∀ d ∈ (processTx st idx tx).dividends, d ∈ st.dividends ∨ d.currency = normCcy tx.currency) ∧
    (∀ t ∈ (processTx st idx tx).trades, t ∈ st.trades ∨ t.currency = normCcy tx.currency) ∧
    normCcy none = ("EUR") ∧ normCcy (some ("")) = ("EUR") ∧
    (∀ s : String, ¬ (s = ("")) → normCcy (some s) = upperStr s) := by
  refine ⟨?_, ?_, ?_, rfl, rfl, ?_⟩
  · intro x hx
    simp only [processTx, tradeOrSkip] at hx
    split_ifs at hx <;>
      simp only [List.mem_append, List.mem_singleton] at hx <;>
      try exact Or.inl hx
    all_goals
      rcases hx with hx | hx
      · exact Or.inl hx
      · first
          | exact absurd hx (List.not_mem_nil x)
          | (subst hx; exact Or.inr rfl)
  · intro x hx
    simp only [processTx, tradeOrSkip] at hx
    split_ifs at hx <;>
      simp only [List.mem_append, List.mem_singleton] at hx <;>
      try exact Or.inl hx
    all_goals
      rcases hx with hx | hx
      · exact Or.inl hx
      · first
          | exact absurd hx (List.not_mem_nil x)
          | (subst hx; exact Or.inr rfl)
  · intro x hx
    simp only [processTx, tradeOrSkip] at hx
    split_ifs at hx <;>
      simp only [List.mem_append, List.mem_singleton] at hx <;>
      try exact Or.inl hx
    all_goals
      rcases hx with hx | hx
      · exact Or.inl hx
      · first
          | exact absurd hx (List.not_mem_nil x)
          | (subst hx; exact Or.inr rfl)
  · intro s hs
    simp [normCcy, hs]

/-- Witness for C10: the fee record with the lowercase code usd is emitted
carrying USD, and an explicit nonempty code is uppercased. -/
theorem C10_currency_normalization_witness :
    ((processTx initState 0 rFee).fees.map (fun f => f.currency)) = [("USD")] ∧
    (feeUSD ∈ (processTx initState 0 rFee).fees) ∧
    (feeUSD ∈ initState.fees ∨ feeUSD.currency = normCcy rFee.currency) ∧
    (¬ (("usd" : String) = (""))) ∧ normCcy (some ("usd")) = upperStr ("usd") :=
  ⟨by decide, by decide,
    (C10_currency_normalization initState 0 rFee).1 feeUSD (by decide),
    by decide,
    (C10_currency_normalization initState 0 rFee).2.2.2.2.2 ("usd") (by decide)⟩

/-- The FIFO matching loop conserves shares: what remains in the queue plus
what was matched equals what was in the queue before. -/
theorem consumeLots_conserve (lots : List Lot) (q : ℚ) :
    lotsRemaining (consumeLots lots q).lots + usedShares (consumeLots lots q).lotsUsed
      = lotsRemaining lots := by
  induction lots generalizing q with
  | nil => simp [consumeLots, lotsRemaining, usedShares]
  | cons l ls ih =>
    by_cases h1 : eps < q
    · by_cases h2 : eps < l.remaining
      · simp only [consumeLots, if_pos h1, if_pos h2, lotsRemaining, usedShares,
          List.map_cons, List.sum_cons]
        have h3 := ih (q - min l.remaining q)
        simp only [lotsRemaining, usedShares] at h3
        linarith
      · simp only [consumeLots, if_pos h1, if_neg h2, lotsRemaining, usedShares,
          List.map_cons, List.sum_cons]
        have h3 := ih q
        simp only [lotsRemaining, usedShares] at h3
        linarith
    · simp [consumeLots, if_neg h1, lotsRemaining, usedShares]

/-- One replay step conserves shares, a buy adding its share count. -/
theorem stepTrade_conserve (ccy : String) (st : ReplayState) (t : Trade) :
    lotsRemaining (stepTrade ccy st t).lots + matchedTotal (stepTrade ccy st t).sells
      = lotsRemaining st.lots + matchedTotal st.sells +
        (if t.ttype = ("buy") then t.shares else 0) := by
  unfold stepTrade
  split_ifs with h1 h2
  · simp [lotsRemaining, matchedTotal, List.map_append, List.sum_append]
    ring
  · simp only [matchedTotal, lotsRemaining, List.map_append, List.sum_append,
      List.map_cons, List.sum_cons, List.map_nil, List.sum_nil]
    have h3 := consumeLots_conserve st.lots t.shares
    simp only [lotsRemaining, usedShares] at h3 ⊢
    have h4 : (sellOutcome ccy st.lots t).2 = (consumeLots st.lots t.shares).lots := rfl
    have h5 : (sellOutcome ccy st.lots t).1.lotsUsed = (consumeLots st.lots t.shares).lotsUsed := rfl
    rw [h4, h5]
    linarith
  · simp

/-- The replay of any trade list conserves shares relative to a starting
state. -/
theorem replay_conserve (ccy : String) (ts : List Trade) : ∀ (st : ReplayState),
    lotsRemaining (ts.foldl (stepTrade ccy) st).lots
      + matchedTotal (ts.foldl (stepTrade ccy) st).sells
      = lotsRemaining st.lots + matchedTotal st.sells + buyTotal ts := by
  induction ts with
  | nil => intro st; simp [buyTotal]
  | cons t ts ih =>
    intro st
    simp only [List.foldl_cons]
    rw [ih (stepTrade ccy st t), stepTrade_conserve]
    by_cases h : t.ttype = ("buy")
    · simp [buyTotal, h]
      ring
    · simp [buyTotal, h]

/-- Sorting a trade list does not change the total bought share count. -/
theorem buyTotal_insertionSort (l : List Trade) :
    buyTotal (List.insertionSort tradeLe l) = buyTotal l := by
  have h := List.perm_insertionSort tradeLe l
  unfold buyTotal
  exact List.Perm.sum_eq (List.Perm.map _ (List.Perm.filter _ h))

/-- C2: for every raw record list and every symbol, after the FIFO engine
replays that symbol's trades in ascending date order, the remaining share
counts over all of the symbol's lots plus all matched sale portions
recorded across its sells add up to the share counts of all of the
symbol's buy trades. -/
theorem C2_fifo_conservation (raw : List RawTx) (sym : String) :
    lotsRemaining (symReplay (ccyFor (processTransactions raw).positions
        (processTransactions raw).trades sym) (processTransactions raw).trades sym).lots
      + matchedTotal (symReplay (ccyFor (processTransactions raw).positions
        (processTransactions raw).trades sym) (processTransactions raw).trades sym).sells
      = buyTotal ((processTransactions raw).trades.filter (fun t => t.symbol = sym)) := by
  unfold symReplay replayTrades symTradesOf
  rw [replay_conserve]
  rw [buyTotal_insertionSort]
  simp [initReplay, lotsRemaining, matchedTotal]

/-- The leftover of the matching loop is the sold quantity minus the
matched total. -/
theorem consumeLots_left (lots : List Lot) (q : ℚ) :
    (consumeLots lots q).left = q - usedShares (consumeLots lots q).lotsUsed := by
  induction lots generalizing q with
  | nil => simp [consumeLots, usedShares]
  | cons l ls ih =>
    by_cases h1 : eps < q
    · by_cases h2 : eps < l.remaining
      · simp only [consumeLots, if_pos h1, if_pos h2, usedShares, List.map_cons, List.sum_cons]
        have h3 := ih (q - min l.remaining q)
        simp only [usedShares] at h3
        linarith
      · simp only [consumeLots, if_neg h2, if_pos h1]
        exact ih q
    · simp [consumeLots, if_neg h1, usedShares]

/-- The accumulated cost basis is the cost of the matched portions. -/
theorem consumeLots_costBasis (lots : List Lot) (q : ℚ) :
    (consumeLots lots q).costBasis = usedCost (consumeLots lots q).lotsUsed := by
  induction lots generalizing q with
  | nil => simp [consumeLots, usedCost]
  | cons l ls ih =>
    by_cases h1 : eps < q
    · by_cases h2 : eps < l.remaining
      · simp only [consumeLots, if_pos h1, if_pos h2, usedCost, List.map_cons, List.sum_cons]
        have h3 := ih (q - min l.remaining q)
        simp only [usedCost] at h3
        linarith
      · simp only [consumeLots, if_neg h2, if_pos h1]
        exact ih q
    · simp [consumeLots, if_neg h1, usedCost]

/-- With a nonnegative queue the matched total cannot exceed what the
queue holds. -/
theorem usedShares_le_lotsRemaining (lots : List Lot) (q : ℚ)
    (h : ∀ l ∈ lots, 0 ≤ l.remaining) :
    usedShares (consumeLots lots q).lotsUsed ≤ lotsRemaining lots := by
  induction lots generalizing q with
  | nil => simp [consumeLots, usedShares, lotsRemaining]
  | cons l ls ih =>
    have hl : 0 ≤ l.remaining := h l (List.mem_cons_self l ls)
    have hls : ∀ x ∈ ls, 0 ≤ x.remaining := fun x hx => h x (List.mem_cons_of_mem l hx)
    by_cases h1 : eps < q
    · by_cases h2 : eps < l.remaining
      · simp only [consumeLots, if_pos h1, if_pos h2, usedShares, lotsRemaining,
          List.map_cons, List.sum_cons]
        have h3 := ih (q - min l.remaining q) hls
        simp only [usedShares, lotsRemaining] at h3
        have h4 : min l.remaining q ≤ l.remaining := min_le_left _ _
        linarith
      · simp only [consumeLots, if_neg h2, if_pos h1]
        have h3 := ih q hls
        simp only [usedShares, lotsRemaining, List.map_cons, List.sum_cons] at h3 ⊢
        linarith
    · simp only [consumeLots, if_neg h1, usedShares, List.map_nil, List.sum_nil]
      have h3 : (0 : ℚ) ≤ lotsRemaining (l :: ls) := by
        simp only [lotsRemaining, List.map_cons, List.sum_cons]
        have : (0 : ℚ) ≤ lotsRemaining ls := by
          unfold lotsRemaining
          apply List.sum_nonneg
          intro x hx
          obtain ⟨y, hy, rfl⟩ := List.mem_map.mp hx
          exact hls y hy
        simp only [lotsRemaining] at this
        linarith
      simpa [lotsRemaining] using h3

/-- C4 amended: on a sell, the remainder left unmatched after the FIFO
loop is dropped, and the diagnostic (the unmatched value behind the
WARNING at src/src/App.jsx line 286) exceeds the 1e-5 epsilon whenever
the sold quantity exceeds the queue's total remaining quantity by more
than that epsilon; the gain is the full proceeds minus the cost basis of
the matched portions alone; and with no lots at all the cost basis is 0,
the realized gain is the entire proceeds, and the whole quantity is
flagged unmatched. -/
theorem C4_unmatched_flag (ccy : String) (lots : List Lot) (t : Trade)
    (h : ∀ l ∈ lots, 0 ≤ l.remaining) :
    (lotsRemaining lots + eps < t.shares → eps < (sellOutcome ccy lots t).1.unmatched) ∧
    (sellOutcome ccy lots t).1.gain
      = (sellOutcome ccy lots t).1.proceeds - (sellOutcome ccy lots t).1.costBasis ∧
    (sellOutcome ccy lots t).1.costBasis = usedCost (sellOutcome ccy lots t).1.lotsUsed ∧
    (lots = [] → (sellOutcome ccy lots t).1.costBasis = 0 ∧
      (sellOutcome ccy lots t).1.gain = (sellOutcome ccy lots t).1.proceeds ∧
      (sellOutcome ccy lots t).1.unmatched = t.shares) := by
  refine ⟨?_, rfl, ?_, ?_⟩
  · intro hq
    have h1 : (sellOutcome ccy lots t).1.unmatched = (consumeLots lots t.shares).left := rfl
    rw [h1, consumeLots_left]
    have h2 := usedShares_le_lotsRemaining lots t.shares h
    linarith
  · exact consumeLots_costBasis lots t.shares
  · intro he
    subst he
    refine ⟨?_, ?_, ?_⟩
    · show (consumeLots [] t.shares).costBasis = 0
      rfl
    · show _ = t.shares * t.price
      show t.shares * t.price - (consumeLots [] t.shares).costBasis = _
      show t.shares * t.price - 0 = _
      ring
    · rfl

/-- C4 counterexample: after buying one share, a sell of 1 + 1e-6 shares
exceeds the queue's total remaining quantity of 1, yet the unmatched
leftover 1e-6 stays at or below the 1e-5 epsilon, so the diagnostic the
claim promises is not raised. -/
theorem C4_counterexample :
    lotsRemaining (replayTrades ("EUR") [tB1]).lots = 1 ∧
    (1 : ℚ) < tS1.shares ∧
    ((replayTrades ("EUR") [tB1, tS1]).sells.map (fun s => s.unmatched)) = [1/1000000] ∧
    ¬ (eps < (1 : ℚ)/1000000) :=
  ⟨by decide, by decide, by decide, by decide⟩

/-- Witness for C4 at the no-lots sell (Scenario C): with an empty queue
the cost basis is 0, the gain equals the whole proceeds, the unmatched
leftover is the full sold quantity, and it exceeds the epsilon. -/
theorem C4_unmatched_flag_witness :
    (∀ l ∈ ([] : List Lot), (0 : ℚ) ≤ l.remaining) ∧
    ((lotsRemaining [] + eps < tS1.shares → eps < (sellOutcome ("EUR") [] tS1).1.unmatched) ∧
     (sellOutcome ("EUR") [] tS1).1.gain
       = (sellOutcome ("EUR") [] tS1).1.proceeds - (sellOutcome ("EUR") [] tS1).1.costBasis ∧
     (sellOutcome ("EUR") [] tS1).1.costBasis = usedCost (sellOutcome ("EUR") [] tS1).1.lotsUsed ∧
     (([] : List Lot) = [] → (sellOutcome ("EUR") [] tS1).1.costBasis = 0 ∧
       (sellOutcome ("EUR") [] tS1).1.gain = (sellOutcome ("EUR") [] tS1).1.proceeds ∧
       (sellOutcome ("EUR") [] tS1).1.unmatched = tS1.shares)) ∧
    (sellOutcome ("EUR") [] tS1).1.costBasis = 0 ∧
    (sellOutcome ("EUR") [] tS1).1.gain = (sellOutcome ("EUR") [] tS1).1.proceeds ∧
    eps < (sellOutcome ("EUR") [] tS1).1.unmatched :=
  ⟨by simp, C4_unmatched_flag ("EUR") [] tS1 (by simp), by decide, by decide, by decide⟩

/-- A freshly created position satisfies the builder's invariant. -/
theorem posInv_fresh (tx : RawTx) : PosInv (freshPos tx) := by
  simp [PosInv, freshPos]

/-- The buy update preserves the builder's invariant. -/
theorem posBuy_inv (pos : Position) (q price : ℚ) (d : Int)
    (hq : 0 < q) (hp : 0 < price) (h : PosInv pos) : PosInv (posBuy pos q price d) := by
  obtain ⟨h1, h2, h3, h4⟩ := h
  have hs : 0 < pos.shares + q := by linarith
  have htc : 0 ≤ pos.totalCost := by
    rw [h1]
    exact mul_nonneg h2 h3
  have htc2 : 0 < pos.totalCost + q * price := by nlinarith
  simp only [PosInv, posBuy, if_pos hs]
  refine ⟨?_, by linarith, le_of_lt (div_pos htc2 hs), fun _ => div_pos htc2 hs⟩
  field_simp

/-- The sell update preserves the builder's invariant. -/
theorem posSell_inv (pos : Position) (q : ℚ)
    (hq : 0 ≤ q) (h : PosInv pos) : PosInv (posSell pos q) := by
  obtain ⟨h1, h2, h3, h4⟩ := h
  simp only [PosInv, posSell]
  refine ⟨?_, le_max_left _ _, h3, ?_⟩
  · rcases eq_or_lt_of_le h3 with hac | hac
    · rw [h1, ← hac]
      simp
    · have e1 : pos.totalCost - q * pos.avgPrice = (pos.shares - q) * pos.avgPrice := by
        rw [h1]
        ring
      rw [e1]
      rcases le_total q pos.shares with hqs | hqs
      · have g1 : 0 ≤ (pos.shares - q) * pos.avgPrice :=
          mul_nonneg (by linarith) h3
        rw [max_eq_right g1, max_eq_right (by linarith : (0 : ℚ) ≤ pos.shares - q)]
      · have g1 : (pos.shares - q) * pos.avgPrice ≤ 0 := by nlinarith
        rw [max_eq_left g1, max_eq_left (by linarith : pos.shares - q ≤ (0 : ℚ))]
        ring
  · intro hpos
    have hsq : 0 < pos.shares - q := by
      by_contra hc
      push_neg at hc
      rw [max_eq_left hc] at hpos
      exact lt_irrefl 0 hpos
    exact h4 (by linarith)

/-- A successful map lookup returns the value of an entry of the map. -/
theorem assocGet_mem (m : List (String × Position)) (k : String) (v : Position)
    (h : assocGet m k = some v) : ∃ e ∈ m, e.2 = v := by
  induction m with
  | nil => simp [assocGet] at h
  | cons kv rest ih =>
    by_cases hk : kv.1 = k
    · simp only [assocGet, if_pos hk, Option.some_inj] at h
      exact ⟨kv, List.mem_cons_self _ _, h⟩
    · simp only [assocGet, if_neg hk] at h
      obtain ⟨e, he, hv⟩ := ih h
      exact ⟨e, List.mem_cons_of_mem _ he, hv⟩

/-- Storing an invariant-satisfying value keeps the whole map invariant. -/
theorem assocSet_inv : ∀ (m : List (String × Position)) (k : String) (v : Position),
    (∀ e ∈ m, PosInv e.2) → PosInv v → ∀ e ∈ assocSet m k v, PosInv e.2 := by
  intro m
  induction m with
  | nil =>
    intro k v _ _ e he
    simp [assocSet] at he
  | cons kv rest ih =>
    intro k v hm hv e he
    by_cases hk : kv.1 = k
    · simp only [assocSet, if_pos hk] at he
      rcases List.mem_cons.mp he with rfl | hrest
      · exact hv
      · exact hm e (List.mem_cons_of_mem _ hrest)
    · simp only [assocSet, if_neg hk] at he
      rcases List.mem_cons.mp he with rfl | hrest
      · exact hm _ (List.mem_cons_self _ _)
      · exact ih k v (fun x hx => hm x (List.mem_cons_of_mem _ hx)) hv e hrest

/-- Creating a missing entry keeps the whole map invariant. -/
theorem ensureKey_inv (m : List (String × Position)) (tx : RawTx)
    (hm : ∀ e ∈ m, PosInv e.2) : ∀ e ∈ ensureKey m tx, PosInv e.2 := by
  intro e he
  unfold ensureKey at he
  split_ifs at he with h
  · rcases List.mem_append.mp he with h1 | h1
    · exact hm e h1
    · rcases List.mem_singleton.mp h1 with rfl
      exact posInv_fresh tx
  · exact hm e he

/-- The looked-up position of an invariant map satisfies the invariant. -/
theorem getPos_inv (m : List (String × Position)) (tx : RawTx)
    (hm : ∀ e ∈ m, PosInv e.2) : PosInv (getPos m tx) := by
  unfold getPos
  rcases h : assocGet m (splitColonHead (symOf tx)) with _ | v
  · exact posInv_fresh tx
  · simp only [Option.getD_some]
    obtain ⟨e, he, hv⟩ := assocGet_mem m _ v h
    rw [← hv]
    exact hm e he

/-- The whole trade-branch map update preserves the invariant. -/
theorem updatePositions_inv (m : List (String × Position)) (tx : RawTx)
    (hm : ∀ e ∈ m, PosInv e.2) (htr : tradeCond tx) :
    ∀ e ∈ updatePositions m tx, PosInv e.2 := by
  have h1 := ensureKey_inv m tx hm
  have h2 := getPos_inv (ensureKey m tx) tx h1
  unfold updatePositions
  apply assocSet_inv _ _ _ h1
  split_ifs with hb
  · refine posBuy_inv _ _ _ _ ?_ htr.2.2 h2
    have he : (0 : ℚ) < eps := by norm_num [eps]
    exact lt_trans he htr.2.1
  · exact posSell_inv _ _ (abs_nonneg _) h2

/-- Every classification step preserves the positions-map invariant. -/
theorem processTx_inv (st : ProcState) (idx : Nat) (tx : RawTx)
    (h : ∀ e ∈ st.positionsMap, PosInv e.2) :
    ∀ e ∈ (processTx st idx tx).positionsMap, PosInv e.2 := by
  unfold processTx tradeOrSkip
  split_ifs
  all_goals
    first
      | exact h
      | exact fun e he => updatePositions_inv st.positionsMap tx h (by assumption) e he

/-- The classification loop preserves the positions-map invariant. -/
theorem foldl_inv (l : List (Nat × RawTx)) : ∀ (st : ProcState),
    (∀ e ∈ st.positionsMap, PosInv e.2) →
    ∀ e ∈ (l.foldl (fun s p => processTx s p.1 p.2) st).positionsMap, PosInv e.2 := by
  induction l with
  | nil =>
    intro st h
    simpa using h
  | cons p l ih =>
    intro st h
    simp only [List.foldl_cons]
    exact ih _ (processTx_inv st p.1 p.2 h)

/-- Every position processTransactions builds satisfies the invariant. -/
theorem processTransactions_inv (raw : List RawTx) :
    ∀ e ∈ (processTransactions raw).allPositions, PosInv e.2 := by
  unfold processTransactions
  exact foldl_inv _ initState (by simp [initState])

/-- C6: for every raw record list, every open position of the builder (a
positions-map entry with more than 1e-5 shares) has shares times average
cost equal to its total cost; in the exact rational model the error is
zero, so in particular the relative error is below 1e-6. -/
theorem C6_position_invariant (raw : List RawTx) (e : String × Position)
    (he : e ∈ (processTransactions raw).allPositions) (hopen : eps < e.2.shares) :
    e.2.shares * e.2.avgPrice = e.2.totalCost ∧
    |e.2.shares * e.2.avgPrice - e.2.totalCost| < (1/1000000) * |e.2.totalCost| := by
  obtain ⟨h1, h2, h3, h4⟩ := processTransactions_inv raw e he
  have heps : (0 : ℚ) < eps := by norm_num [eps]
  have hs : 0 < e.2.shares := lt_trans heps hopen
  have hac : 0 < e.2.avgPrice := h4 hs
  have htc : 0 < e.2.totalCost := by
    rw [h1]
    exact mul_pos hs hac
  refine ⟨h1.symm, ?_⟩
  have hz : e.2.shares * e.2.avgPrice - e.2.totalCost = 0 := by
    rw [h1]
    ring
  rw [hz, abs_zero]
  exact mul_pos (by norm_num) (abs_pos.mpr (ne_of_gt htc))

/-- Witness for C6 on Scenario A: the AAPL position ends open with 5
shares, average cost 110 and total cost 550 = 5 * 110. -/
theorem C6_position_invariant_witness :
    ((("AAPL"), pA) ∈ (processTransactions [rA1, rA2, rA3]).allPositions) ∧
    (eps < (("AAPL"), pA).2.shares) ∧
    ((("AAPL"), pA).2.shares * (("AAPL"), pA).2.avgPrice = (("AAPL"), pA).2.totalCost ∧
     |(("AAPL"), pA).2.shares * (("AAPL"), pA).2.avgPrice - (("AAPL"), pA).2.totalCost|
       < (1/1000000) * |(("AAPL"), pA).2.totalCost|) ∧
    pA.shares * pA.avgPrice = 550 :=
  ⟨by decide, by decide,
    C6_position_invariant [rA1, rA2, rA3] (("AAPL"), pA) (by decide) (by decide),
    by decide⟩

/-- FIFO consumption does not change the dates along the lot queue. -/
theorem consumeLots_dates (lots : List Lot) (q : ℚ) :
    (consumeLots lots q).lots.map (fun l => l.date) = lots.map (fun l => l.date) := by
  induction lots generalizing q with
  | nil => simp [consumeLots]
  | cons l ls ih =>
    by_cases h1 : eps < q
    · by_cases h2 : eps < l.remaining
      · simp only [consumeLots, if_pos h1, if_pos h2, List.map_cons]
        rw [ih]
      · simp only [consumeLots, if_pos h1, if_neg h2, List.map_cons]
        rw [ih]
    · simp [consumeLots, if_neg h1]

/-- The dates of the matched portions form a sublist of the queue's dates,
in queue order. -/
theorem consumeLots_used_sublist (lots : List Lot) (q : ℚ) :
    ((consumeLots lots q).lotsUsed.map (fun u => u.date)).Sublist
      (lots.map (fun l => l.date)) := by
  induction lots generalizing q with
  | nil => simp [consumeLots]
  | cons l ls ih =>
    by_cases h1 : eps < q
    · by_cases h2 : eps < l.remaining
      · simp only [consumeLots, if_pos h1, if_pos h2, List.map_cons]
        exact List.Sublist.cons₂ _ (ih _)
      · simp only [consumeLots, if_pos h1, if_neg h2, List.map_cons]
        exact List.Sublist.cons _ (ih _)
    · simp only [consumeLots, if_neg h1]
      exact List.nil_sublist _

/-- Replay invariant: over a date-sorted trade list, every recorded sell
takes its holding period from its first matched portion, that portion is
the oldest consumed, and the long-term flag is exactly the strict 365-day
comparison. -/
theorem replay_sellGood (ccy : String) : ∀ (ts : List Trade) (st : ReplayState),
    ts.Pairwise tradeLe →
    ((st.lots.map (fun l => l.date)).Pairwise (fun a b => a ≤ b)) →
    (∀ l ∈ st.lots, ∀ t ∈ ts, l.date ≤ t.date) →
    (∀ s ∈ st.sells, ∀ (u : LotUse) (us : List LotUse), s.lotsUsed = u :: us →
      s.days = ceilDays s.date u.date ∧ (∀ v ∈ s.lotsUsed, u.date ≤ v.date) ∧
        (s.isLong = true ↔ 365 < s.days)) →
    ∀ s ∈ (ts.foldl (stepTrade ccy) st).sells, ∀ (u : LotUse) (us : List LotUse),
      s.lotsUsed = u :: us →
      s.days = ceilDays s.date u.date ∧ (∀ v ∈ s.lotsUsed, u.date ≤ v.date) ∧
        (s.isLong = true ↔ 365 < s.days) := by
  intro ts
  induction ts with
  | nil =>
    intro st _ _ _ hgood
    simpa using hgood
  | cons t ts ih =>
    intro st hsort hlots hbound hgood
    simp only [List.foldl_cons]
    refine ih (stepTrade ccy st t) (List.Pairwise.of_cons hsort) ?_ ?_ ?_
    · by_cases h1 : t.ttype = ("buy")
      · have hb : (stepTrade ccy st t).lots = st.lots ++
            [{ date := t.date, shares := t.shares, remaining := t.shares, price := t.price }] := by
          unfold stepTrade
          rw [if_pos h1]
        rw [hb, List.map_append, List.pairwise_append]
        refine ⟨hlots, by simp, ?_⟩
        intro d hd d2 hd2
        simp only [List.map_cons, List.map_nil, List.mem_cons, List.not_mem_nil, or_false] at hd2
        subst hd2
        obtain ⟨l, hl, rfl⟩ := List.mem_map.mp hd
        exact hbound l hl t (List.mem_cons_self _ _)
      · by_cases h2 : t.ttype = ("sell")
        · have hb : (stepTrade ccy st t).lots = (consumeLots st.lots t.shares).lots := by
            unfold stepTrade
            rw [if_neg h1, if_pos h2]
            rfl
          rw [hb, consumeLots_dates]
          exact hlots
        · have hb : (stepTrade ccy st t).lots = st.lots := by
            unfold stepTrade
            rw [if_neg h1, if_neg h2]
          rw [hb]
          exact hlots
    · intro l hl t2 ht2
      by_cases h1 : t.ttype = ("buy")
      · have hb : (stepTrade ccy st t).lots = st.lots ++
            [{ date := t.date, shares := t.shares, remaining := t.shares, price := t.price }] := by
          unfold stepTrade
          rw [if_pos h1]
        rw [hb] at hl
        rcases List.mem_append.mp hl with hl1 | hl1
        · exact hbound l hl1 t2 (List.mem_cons_of_mem _ ht2)
        · rcases List.mem_singleton.mp hl1 with rfl
          exact List.rel_of_pairwise_cons hsort ht2
      · by_cases h2 : t.ttype = ("sell")
        · have hb : (stepTrade ccy st t).lots = (consumeLots st.lots t.shares).lots := by
            unfold stepTrade
            rw [if_neg h1, if_pos h2]
            rfl
          rw [hb] at hl
          have hd : l.date ∈ (consumeLots st.lots t.shares).lots.map (fun l => l.date) :=
            List.mem_map_of_mem _ hl
          rw [consumeLots_dates] at hd
          obtain ⟨l0, hl0, he⟩ := List.mem_map.mp hd
          rw [← he]
          exact hbound l0 hl0 t2 (List.mem_cons_of_mem _ ht2)
        · have hb : (stepTrade ccy st t).lots = st.lots := by
            unfold stepTrade
            rw [if_neg h1, if_neg h2]
          rw [hb] at hl
          exact hbound l hl t2 (List.mem_cons_of_mem _ ht2)
    · intro s hs u us hu
      by_cases h1 : t.ttype = ("buy")
      · have hb : (stepTrade ccy st t).sells = st.sells := by
          unfold stepTrade
          rw [if_pos h1]
        rw [hb] at hs
        exact hgood s hs u us hu
      · by_cases h2 : t.ttype = ("sell")
        · have hb : (stepTrade ccy st t).sells = st.sells ++ [(sellOutcome ccy st.lots t).1] := by
            unfold stepTrade
            rw [if_neg h1, if_pos h2]
          rw [hb] at hs
          rcases List.mem_append.mp hs with hs1 | hs1
          · exact hgood s hs1 u us hu
          · rcases List.mem_singleton.mp hs1 with rfl
            have hcu : (consumeLots st.lots t.shares).lotsUsed = u :: us := hu
            have hsor : (((consumeLots st.lots t.shares).lotsUsed).map
                (fun v => v.date)).Pairwise (fun a b => a ≤ b) :=
              List.Pairwise.sublist (consumeLots_used_sublist st.lots t.shares) hlots
            rw [hcu, List.map_cons] at hsor
            refine ⟨?_, ?_, ?_⟩
            · show (sellOutcome ccy st.lots t).1.days
                = ceilDays (sellOutcome ccy st.lots t).1.date u.date
              simp only [sellOutcome, hcu]
            · intro v hv
              have hv2 : v ∈ (consumeLots st.lots t.shares).lotsUsed := hv
              rw [hcu] at hv2
              rcases List.mem_cons.mp hv2 with rfl | hv3
              · exact le_refl _
              · exact List.rel_of_pairwise_cons hsor (List.mem_map_of_mem _ hv3)
            · show (sellOutcome ccy st.lots t).1.isLong = true
                ↔ 365 < (sellOutcome ccy st.lots t).1.days
              simp only [sellOutcome]
              exact decide_eq_true_iff
        · have hb : (stepTrade ccy st t).sells = st.sells := by
            unfold stepTrade
            rw [if_neg h1, if_neg h2]
          rw [hb] at hs
          exact hgood s hs u us hu

/-- C5: for every sell the per-symbol FIFO replay records that consumed at
least one lot, the holding period is the ceiling of the day difference
between the sale date and the date of the first matched portion, that
portion is the oldest lot consumed in the sale (its date is minimal among
all consumed portions), and the gain is bucketed long term exactly when
that holding period strictly exceeds 365 days, so exactly 365 days is
short term. -/
theorem C5_holding_period (ccy : String) (trades : List Trade) (sym : String)
    (s : SellAudit) (hs : s ∈ (symReplay ccy trades sym).sells)
    (u : LotUse) (us : List LotUse) (hu : s.lotsUsed = u :: us) :
    s.days = ceilDays s.date u.date ∧
    (∀ v ∈ s.lotsUsed, u.date ≤ v.date) ∧
    (s.isLong = true ↔ 365 < s.days) := by
  have hsorted : (symTradesOf trades sym).Pairwise tradeLe :=
    List.sorted_insertionSort tradeLe (trades.filter (fun t => t.symbol = sym))
  exact replay_sellGood ccy (symTradesOf trades sym) initReplay hsorted
    (by simp [initReplay]) (by simp [initReplay]) (by simp [initReplay]) s hs u us hu

/-- Witness for C5 at the 365-day boundary: buying at day 0 and selling
exactly 365 days later gives holding period 365 and a short-term bucket. -/
theorem C5_holding_period_witness :
    (sB2 ∈ (symReplay ("EUR") [tB2, tS2] ("BBB")).sells) ∧
    (sB2.lotsUsed = luB2 :: []) ∧
    (sB2.days = ceilDays sB2.date luB2.date ∧
     (∀ v ∈ sB2.lotsUsed, luB2.date ≤ v.date) ∧
     (sB2.isLong = true ↔ 365 < sB2.days)) ∧
    sB2.days = 365 ∧ sB2.isLong = false :=
  ⟨by decide, by decide,
    C5_holding_period ("EUR") [tB2, tS2] ("BBB") sB2 (by decide) luB2 [] (by decide),
    by decide, by decide⟩
